import Mathlib

/-!
A shallow embedding of `global_scripts/build_repo_prompt.py`.

The program has two parts: an interactive directory traversal
(`process_directory`) that builds an ordered list of included files, and a
serializer (`generate_xml`) that emits an XML-like document.  Strings are
modelled as Lean `String` (a list of unicode scalar values, matching Python's
`str`); the opaque external services of the spec (token counting, the answer
channel) are parameters of the model.
-/

namespace BuildRepoPrompt

/-- One selected file, the dict appended to `included_files` in the source. -/
structure IncludedFile where
  path : String
  content : String
  char_count : Nat
  token_count : Nat
deriving DecidableEq, Repr

/-- Python `str.replace` for a single-character pattern: every occurrence of
`p` becomes `rep`.  For a one-character pattern the left-to-right scan of
`str.replace` is exactly a character-wise bind. -/
def replace1 (p : Char) (rep : List Char) (l : List Char) : List Char :=
  l.flatMap fun c => if c = p then rep else [c]

/-- `xml.sax.saxutils.escape` with the default entity table:
`data.replace("&", "&amp;").replace("<", "&lt;").replace(">", "&gt;")`.
The double quote is NOT escaped by this function. -/
def escapeL (l : List Char) : List Char :=
  replace1 '>' ['&', 'g', 't', ';']
    (replace1 '<' ['&', 'l', 't', ';']
      (replace1 '&' ['&', 'a', 'm', 'p', ';'] l))

/-- `escape` on `String`, as the source applies it to repo name, paths and
file contents. -/
def escape (s : String) : String := String.mk (escapeL s.data)

/-- The per-file character map that `escapeL` amounts to (proved below). -/
def e3 (c : Char) : List Char :=
  if c = '&' then ['&', 'a', 'm', 'p', ';']
  else if c = '<' then ['&', 'l', 't', ';']
  else if c = '>' then ['&', 'g', 't', ';']
  else [c]

/-- Intermediate form: `<` already restored, `&` and `>` still escaped. -/
def e2 (c : Char) : List Char :=
  if c = '&' then ['&', 'a', 'm', 'p', ';']
  else if c = '>' then ['&', 'g', 't', ';']
  else [c]

/-- Intermediate form: only `&` still escaped. -/
def e1 (c : Char) : List Char :=
  if c = '&' then ['&', 'a', 'm', 'p', ';'] else [c]

/-- Python `str.replace` for a multi-character pattern `p :: ps`: scan left to
right, on a match consume the pattern and emit `r`, otherwise move one
character.  (All uses replace an entity by a single character.) -/
def unescP (p : Char) (ps : List Char) (r : Char) : List Char → List Char
  | [] => []
  | c :: cs =>
    if c = p ∧ cs.take ps.length = ps then r :: unescP p ps r (cs.drop ps.length)
    else c :: unescP p ps r cs
termination_by l => l.length
decreasing_by
  · simp
    omega
  · simp

/-- The inverse replacement named by the spec, in `xml.sax.saxutils.unescape`
order: `&lt;` back to `<`, then `&gt;` back to `>`, then `&amp;` back to `&`. -/
def unescapeL (l : List Char) : List Char :=
  unescP '&' ['a', 'm', 'p', ';'] '&'
    (unescP '&' ['g', 't', ';'] '>'
      (unescP '&' ['l', 't', ';'] '<' l))

/-- `unescape` on `String`. -/
def unescape (s : String) : String := String.mk (unescapeL s.data)

/-- A character list is well escaped for markup when it holds no raw `<` or
`>` and every `&` starts one of the three entities `&amp;` `&lt;` `&gt;`. -/
def wellEscaped : List Char → Bool
  | [] => true
  | c :: t =>
    if c = '<' ∨ c = '>' then false
    else if c = '&' then
      if t.take 4 = ['a', 'm', 'p', ';'] ∨ t.take 3 = ['l', 't', ';'] ∨ t.take 3 = ['g', 't', ';'] then
        wellEscaped t
      else false
    else wellEscaped t

/-- The index line the source emits for one included file:
`f"    /{file_info['path']}"` — note: the raw path, not escaped. -/
def indexLine (f : IncludedFile) : String := "    /" ++ f.path

/-- The three lines the source emits per included file: the opening tag with
the escaped path as attribute, the escaped content, the closing tag. -/
def fileBlock (f : IncludedFile) : List String :=
  ["  <file path=\"" ++ escape f.path ++ "\">",
   "    " ++ escape f.content,
   "  </file>\n"]

/-- The `xml_lines` list that `generate_xml` builds before joining:
opening tag with the escaped repo name, the index block (raw paths prefixed
by `/`), then one block per file in the same order, then the closing tag. -/
def generate_xml_lines (included_files : List IncludedFile) (repo_name : String) : List String :=
  ["<repo name=\"" ++ escape repo_name ++ "\">", "  <directory structure>"]
    ++ included_files.map indexLine
    ++ ["  </directory>\n"]
    ++ included_files.flatMap fileBlock
    ++ ["</repo>"]

/-- `generate_xml(included_files, repo_name)`: `"\n".join(xml_lines)`.
The source's `repo_name=None` default (current directory name) is part of the
CLI entry point, outside the serializer's data contract. -/
def generate_xml (included_files : List IncludedFile) (repo_name : String) : String :=
  String.intercalate "\n" (generate_xml_lines included_files repo_name)

/-- Round `t / d` to the nearest integer, ties to even — the rounding CPython
applies when formatting a binary float with `:.1f` (the divisions by 1024 in
`format_size` are exact in binary floating point for any realistic size). -/
def roundHalfEven (t d : Nat) : Nat :=
  let q := t / d
  let r := t % d
  if d < 2 * r then q + 1
  else if 2 * r < d then q
  else if q % 2 = 0 then q else q + 1

/-- `format_size`: below 1024 the raw byte count with a `B` unit, otherwise
`f"{num_bytes / 1024:.1f} KB"`, i.e. the quotient rendered with exactly one
decimal digit. -/
def format_size (num_bytes : Nat) : String :=
  if num_bytes < 1024 then toString num_bytes ++ " B"
  else
    let v := roundHalfEven (10 * num_bytes) 1024
    toString (v / 10) ++ "." ++ toString (v % 10) ++ " KB"

/-- An operator answer as validated by `prompt_choice`: `y`, `n` or `o`.
The re-prompt loop on invalid input is the opaque input service of the spec
(it blocks until a valid answer arrives), so the model's answer stream holds
only validated answers; a binary prompt tests its answer against `y` exactly
as the source tests `sub_choice == "y"`. -/
inductive Ans where
  | y
  | n
  | o
deriving DecidableEq, Repr

/-- One directory entry.  A file carries the results of the host interactions
the source performs on it: `stat` (`none` when `stat()` raises), the
`is_probably_binary` verdict, and the decoded text (`none` when opening or
UTF-8 decoding raises).  A directory carries its listing (`none` when
`iterdir()` raises). -/
inductive FsEntry where
  | file (name : String) (stat : Option Nat) (bin : Bool) (content : Option String)
  | dir (name : String) (listing : Option (List FsEntry))

def nameOf : FsEntry → String
  | .file n _ _ _ => n
  | .dir n _ => n

def isDirE : FsEntry → Bool
  | .file _ _ _ _ => false
  | .dir _ _ => true

def isFileE : FsEntry → Bool
  | .file _ _ _ _ => true
  | .dir _ _ => false

def IGNORE_DIRS : List String := [".git", "__pycache__", ".vscode"]

def IGNORE_FILES_SUFFIX : List String := [".pyc"]

def IGNORE_FILES_NAMES : List String := ["repo-contents.xml", ".DS_Store"]

/-- Python `name.startswith(".")`. -/
def startsWithDot (s : String) : Bool :=
  match s.data with
  | [] => false
  | c :: _ => c = '.'

/-- Python `name.endswith(suffix)` on character lists. -/
def endsWithL (l suf : List Char) : Bool :=
  decide (suf = l.drop (l.length - suf.length))

/-- The filter inside `sorted(p for p in directory.iterdir() if not (...))`:
`not (p.is_dir() and p.name in IGNORE_DIRS or p.name.startswith("."))`
(in Python, `and` binds tighter than `or`). -/
def keepListing (e : FsEntry) : Bool :=
  !((isDirE e && IGNORE_DIRS.contains (nameOf e)) || startsWithDot (nameOf e))

/-- The re-check applied to directories in the partition loop. -/
def dirKept (e : FsEntry) : Bool :=
  !(IGNORE_DIRS.contains (nameOf e) || startsWithDot (nameOf e))

/-- The check applied to files in the partition loop. -/
def fileKept (e : FsEntry) : Bool :=
  !(IGNORE_FILES_NAMES.contains (nameOf e)
    || IGNORE_FILES_SUFFIX.any (fun suf => endsWithL (nameOf e).data suf.data)
    || startsWithDot (nameOf e))

/-- The comparison `sorted` uses on entries of one directory: `Path.__lt__`
compares the path strings, which for siblings is the code-point order of the
names.  `nameLe a b` holds when `a` may stay before `b`. -/
def nameLe (a b : FsEntry) : Bool := !(decide (nameOf b < nameOf a))

/-- Stable insertion into a sorted list (insertion sort produces the same
list as any stable sort, hence as Python's `sorted`). -/
def insertE (a : FsEntry) : List FsEntry → List FsEntry
  | [] => [a]
  | b :: l => if nameLe a b then a :: b :: l else b :: insertE a l

/-- `sorted(...)` on the filtered entries. -/
def sortEntries : List FsEntry → List FsEntry
  | [] => []
  | a :: l => insertE a (sortEntries l)

/-- One element of `file_info_list`:
`(file_path, content, char_count, token_count, size_str)`. -/
structure FileInfo where
  name : String
  content : String
  char_count : Nat
  token_count : Nat
  size_str : String
deriving DecidableEq, Repr

/-- The body of the metadata loop for one candidate file: stat the file
(skip on error), format its size, skip it when the binary detector flags it,
read and decode it (skip on error), and record name, content, character
count and token count.  `tok` is the opaque `get_token_count` service. -/
def readInfo (tok : String → Nat) : FsEntry → Option FileInfo
  | .dir _ _ => none
  | .file n sz bin cont =>
    match sz with
    | none => none
    | some bytes =>
      let size_str := format_size bytes
      if bin then none
      else
        match cont with
        | none => none
        | some c => some ⟨n, c, c.length, tok c, size_str⟩

/-- `str(relative_path / name).replace(os.sep, "/")`, with
`relative_path` as the list of directory names from the root. -/
def pathOf (rel : List String) (name : String) : String :=
  String.intercalate "/" (rel ++ [name])

/-- The dict appended to `included_files` for one accepted candidate. -/
def mkRecord (rel : List String) (i : FileInfo) : IncludedFile :=
  ⟨pathOf rel i.name, i.content, i.char_count, i.token_count⟩

/-- The traversal state threaded through the recursion: the shared
`included_files` list, the index of the next operator answer, and the names
of the entries reported (printed) to the operator so far. -/
structure St where
  acc : List IncludedFile
  k : Nat
  log : List String
deriving DecidableEq, Repr

/-- The `file_choice == "y"` branch: every candidate with non-empty content
becomes a record, in listed order. -/
def filesSelectedAll (rel : List String) (infos : List FileInfo) : List IncludedFile :=
  infos.filterMap fun i => if i.char_count = 0 then none else some (mkRecord rel i)

/-- The `file_choice == "o"` branch: one yes/no answer per candidate, in
listed order; the empty-content check runs only after a yes answer. -/
def processFilesOne (ans : Nat → Ans) (rel : List String) : List FileInfo → St → St
  | [], st => st
  | i :: t, st =>
    let st2 : St := { st with k := st.k + 1 }
    if ans st.k = Ans.y then
      if i.char_count = 0 then processFilesOne ans rel t st2
      else processFilesOne ans rel t { st2 with acc := st2.acc ++ [mkRecord rel i] }
    else processFilesOne ans rel t st2

/-- The `if files:` block: report every candidate, ask the level-wide
three-way question, then include all / none / one-by-one.  The prompt is
issued whenever `files` is non-empty, even when every candidate was skipped
as binary or unreadable. -/
def processFiles (ans : Nat → Ans) (tok : String → Nat) (rel : List String)
    (files : List FsEntry) (st : St) : St :=
  if files.isEmpty then st
  else
    let infos := files.filterMap (readInfo tok)
    let st1 : St := { st with log := st.log ++ files.map nameOf }
    let st2 : St := { st1 with k := st1.k + 1 }
    match ans st1.k with
    | Ans.y => { st2 with acc := st2.acc ++ filesSelectedAll rel infos }
    | Ans.n => st2
    | Ans.o => processFilesOne ans rel infos st2

def sizeOf_filter_le (p : FsEntry → Bool) : ∀ l : List FsEntry, sizeOf (l.filter p) ≤ sizeOf l := by
  intro l
  induction l with
  | nil => simp
  | cons a t ih =>
    rw [List.filter_cons]
    by_cases h : p a
    · simp only [h, if_pos]
      simp only [List.cons.sizeOf_spec]
      omega
    · simp only [h, if_neg, Bool.false_eq_true, not_false_eq_true]
      simp only [List.cons.sizeOf_spec]
      omega

def sizeOf_insertE (a : FsEntry) : ∀ l : List FsEntry, sizeOf (insertE a l) = 1 + sizeOf a + sizeOf l := by
  intro l
  induction l with
  | nil => simp [insertE]
  | cons b t ih =>
    rw [insertE]
    by_cases h : nameLe a b
    · simp only [h, if_pos]
      simp only [List.cons.sizeOf_spec]
      try omega
    · simp only [h, if_neg, Bool.false_eq_true, not_false_eq_true]
      simp only [List.cons.sizeOf_spec]
      omega

def sizeOf_sortEntries : ∀ l : List FsEntry, sizeOf (sortEntries l) = sizeOf l := by
  intro l
  induction l with
  | nil => simp [sortEntries]
  | cons a t ih =>
    have h := sizeOf_insertE a (sortEntries t)
    simp only [sortEntries, List.cons.sizeOf_spec]
    omega

mutual

/-- `process_directory(directory, relative_path, included_files)`: list the
directory (on failure return the accumulator unchanged), filter and sort the
entries, partition into files and directories, run the files block, then the
directories block with its own three-way prompt. -/
def processDir (ans : Nat → Ans) (tok : String → Nat) : FsEntry → List String → St → St
  | .file _ _ _ _, _, st => st
  | .dir _ none, _, st => st
  | .dir _ (some listing), rel, st =>
    let entries := sortEntries (listing.filter keepListing)
    let files := entries.filter fun x => isFileE x && fileKept x
    let dirs := entries.filter fun x => isDirE x && dirKept x
    let st1 := processFiles ans tok rel files st
    if dirs.isEmpty then st1
    else
      let st2 : St := { st1 with log := st1.log ++ dirs.map nameOf }
      let st3 : St := { st2 with k := st2.k + 1 }
      match ans st2.k with
      | Ans.y => processDirsAll ans tok dirs rel st3
      | Ans.o => processDirsOne ans tok dirs rel st3
      | Ans.n => st3
termination_by e _ _ => sizeOf e
decreasing_by
  all_goals
    have h1 := sizeOf_filter_le (fun x => isDirE x && dirKept x)
      (sortEntries (listing.filter keepListing))
    have h2 := sizeOf_sortEntries (listing.filter keepListing)
    have h3 := sizeOf_filter_le keepListing listing
    simp only [FsEntry.dir.sizeOf_spec, Option.some.sizeOf_spec]
    omega

/-- The `dir_choice == "y"` branch: recurse into every listed subdirectory,
in order, threading the state. -/
def processDirsAll (ans : Nat → Ans) (tok : String → Nat) : List FsEntry → List String → St → St
  | [], _, st => st
  | d :: t, rel, st =>
    processDirsAll ans tok t rel (processDir ans tok d (rel ++ [nameOf d]) st)
termination_by ds _ _ => sizeOf ds
decreasing_by
  all_goals simp only [List.cons.sizeOf_spec]
  all_goals omega

/-- The `dir_choice == "o"` branch: one yes/no answer per subdirectory, in
listed order; recurse only on yes. -/
def processDirsOne (ans : Nat → Ans) (tok : String → Nat) : List FsEntry → List String → St → St
  | [], _, st => st
  | d :: t, rel, st =>
    let st2 : St := { st with k := st.k + 1 }
    if ans st.k = Ans.y then
      processDirsOne ans tok t rel (processDir ans tok d (rel ++ [nameOf d]) st2)
    else processDirsOne ans tok t rel st2
termination_by ds _ _ => sizeOf ds
decreasing_by
  all_goals simp only [List.cons.sizeOf_spec]
  all_goals omega

end

/-- A record is good when its character count is the length of its decoded
content and positive. -/
def GoodRec (r : IncludedFile) : Prop :=
  r.char_count = r.content.length ∧ 0 < r.char_count

/-- How one traversal step may change the state: the accumulator is only
appended to (with good records), the answer index only advances, and the log
only grows with names that do not start with a dot. -/
def StepSpec (st st' : St) : Prop :=
  ∃ (t : List IncludedFile) (m : Nat) (lg : List String),
    st' = ⟨st.acc ++ t, st.k + m, st.log ++ lg⟩
    ∧ (∀ r ∈ t, GoodRec r)
    ∧ (∀ nm ∈ lg, startsWithDot nm = false)

mutual

/-- Remove every dot-prefixed entry from a tree, everywhere. -/
def stripDotsE : FsEntry → FsEntry
  | .file n sz bin cont => .file n sz bin cont
  | .dir n none => .dir n none
  | .dir n (some l) => .dir n (some (stripDotsL l))

/-- Remove every dot-prefixed entry from a listing, recursively. -/
def stripDotsL : List FsEntry → List FsEntry
  | [] => []
  | e :: t =>
    if startsWithDot (nameOf e) then stripDotsL t
    else stripDotsE e :: stripDotsL t

end

/-! ### Lemmas about the escaping functions -/

theorem replace1_cons (p : Char) (rep : List Char) (c : Char) (l : List Char) :
    replace1 p rep (c :: l) = (if c = p then rep else [c]) ++ replace1 p rep l := by
  simp [replace1]

theorem replace1_append (p : Char) (rep : List Char) (x y : List Char) :
    replace1 p rep (x ++ y) = replace1 p rep x ++ replace1 p rep y := by
  simp [replace1]

/-- The three sequential one-character replacements of `escape` amount to one
character-wise map: the entities the first pass introduces contain no `<` or
`>`, and the later passes leave `&` alone. -/
theorem escapeL_eq_flatMap (l : List Char) : escapeL l = l.flatMap e3 := by
  induction l with
  | nil => rfl
  | cons c t ih =>
    show replace1 '>' _ (replace1 '<' _ (replace1 '&' _ (c :: t))) = _
    rw [replace1_cons, replace1_append, replace1_append, List.flatMap_cons]
    have htail : replace1 '>' ['&', 'g', 't', ';']
        (replace1 '<' ['&', 'l', 't', ';'] (replace1 '&' ['&', 'a', 'm', 'p', ';'] t))
        = t.flatMap e3 := ih
    rw [htail]
    by_cases h1 : c = '&'
    · subst h1
      rfl
    · by_cases h2 : c = '<'
      · subst h2
        rfl
      · by_cases h3 : c = '>'
        · subst h3
          rfl
        · rw [if_neg h1]
          have hid : replace1 '>' ['&', 'g', 't', ';'] (replace1 '<' ['&', 'l', 't', ';'] [c]) = [c] := by
            simp [replace1, h2, h3]
          rw [hid, e3, if_neg h1, if_neg h2, if_neg h3]

theorem unescP_nil (p : Char) (ps : List Char) (r : Char) : unescP p ps r [] = [] := by
  simp [unescP]

theorem unescP_cons_pos {p : Char} {ps : List Char} {r c : Char} {cs : List Char}
    (h1 : c = p) (h2 : cs.take ps.length = ps) :
    unescP p ps r (c :: cs) = r :: unescP p ps r (cs.drop ps.length) := by
  rw [unescP]
  rw [if_pos ⟨h1, h2⟩]

theorem unescP_cons_neg {p : Char} {ps : List Char} {r c : Char} {cs : List Char}
    (h : ¬(c = p ∧ cs.take ps.length = ps)) :
    unescP p ps r (c :: cs) = c :: unescP p ps r cs := by
  rw [unescP]
  rw [if_neg h]

/-- A scan never fires inside a stretch of characters different from the
pattern's first character. -/
theorem unescP_steps (p : Char) (ps : List Char) (r : Char) (pre : List Char)
    (h : ∀ c ∈ pre, c ≠ p) :
    ∀ l : List Char, unescP p ps r (pre ++ l) = pre ++ unescP p ps r l := by
  induction pre with
  | nil => intro l; rfl
  | cons c t ih =>
    intro l
    have hneg : ¬(c = p ∧ (t ++ l).take ps.length = ps) := fun hc =>
      h c (List.mem_cons_self c t) hc.1
    rw [List.cons_append, unescP_cons_neg hneg,
      ih (fun x hx => h x (List.mem_cons_of_mem c hx)) l]
    rfl

theorem unescLt_flatMap_e3 (s : List Char) :
    unescP '&' ['l', 't', ';'] '<' (s.flatMap e3) = s.flatMap e2 := by
  induction s with
  | nil => exact unescP_nil _ _ _
  | cons c t ih =>
    by_cases h1 : c = '&'
    · subst h1
      show unescP '&' ['l', 't', ';'] '<' ('&' :: 'a' :: 'm' :: 'p' :: ';' :: t.flatMap e3)
        = '&' :: 'a' :: 'm' :: 'p' :: ';' :: t.flatMap e2
      have hneg : ¬('&' = '&' ∧
          ('a' :: 'm' :: 'p' :: ';' :: t.flatMap e3).take (['l', 't', ';'] : List Char).length
            = ['l', 't', ';']) := by
        intro hc
        have h2 := hc.2
        rw [show ('a' :: 'm' :: 'p' :: ';' :: t.flatMap e3).take (['l', 't', ';'] : List Char).length
            = ['a', 'm', 'p'] from rfl] at h2
        exact absurd h2 (by decide)
      rw [unescP_cons_neg hneg]
      show '&' :: unescP '&' ['l', 't', ';'] '<' (['a', 'm', 'p', ';'] ++ t.flatMap e3) = _
      rw [unescP_steps '&' ['l', 't', ';'] '<' ['a', 'm', 'p', ';'] (by decide) (t.flatMap e3), ih]
      rfl
    · by_cases h2 : c = '<'
      · subst h2
        show unescP '&' ['l', 't', ';'] '<' ('&' :: 'l' :: 't' :: ';' :: t.flatMap e3)
          = '<' :: t.flatMap e2
        have hpos : ('l' :: 't' :: ';' :: t.flatMap e3).take (['l', 't', ';'] : List Char).length
            = ['l', 't', ';'] := rfl
        rw [unescP_cons_pos rfl hpos]
        show '<' :: unescP '&' ['l', 't', ';'] '<' (t.flatMap e3) = '<' :: t.flatMap e2
        rw [ih]
      · by_cases h3 : c = '>'
        · subst h3
          show unescP '&' ['l', 't', ';'] '<' ('&' :: 'g' :: 't' :: ';' :: t.flatMap e3)
            = '&' :: 'g' :: 't' :: ';' :: t.flatMap e2
          have hneg : ¬('&' = '&' ∧
              ('g' :: 't' :: ';' :: t.flatMap e3).take (['l', 't', ';'] : List Char).length
                = ['l', 't', ';']) := by
            intro hc
            have hx := hc.2
            rw [show ('g' :: 't' :: ';' :: t.flatMap e3).take (['l', 't', ';'] : List Char).length
                = ['g', 't', ';'] from rfl] at hx
            exact absurd hx (by decide)
          rw [unescP_cons_neg hneg]
          show '&' :: unescP '&' ['l', 't', ';'] '<' (['g', 't', ';'] ++ t.flatMap e3) = _
          rw [unescP_steps '&' ['l', 't', ';'] '<' ['g', 't', ';'] (by decide) (t.flatMap e3), ih]
          rfl
        · rw [List.flatMap_cons, List.flatMap_cons,
            show e3 c = [c] from by rw [e3, if_neg h1, if_neg h2, if_neg h3],
            show e2 c = [c] from by rw [e2, if_neg h1, if_neg h3],
            List.cons_append, List.nil_append, List.cons_append, List.nil_append,
            unescP_cons_neg (fun hc => h1 hc.1), ih]

theorem unescGt_flatMap_e2 (s : List Char) :
    unescP '&' ['g', 't', ';'] '>' (s.flatMap e2) = s.flatMap e1 := by
  induction s with
  | nil => exact unescP_nil _ _ _
  | cons c t ih =>
    by_cases h1 : c = '&'
    · subst h1
      show unescP '&' ['g', 't', ';'] '>' ('&' :: 'a' :: 'm' :: 'p' :: ';' :: t.flatMap e2)
        = '&' :: 'a' :: 'm' :: 'p' :: ';' :: t.flatMap e1
      have hneg : ¬('&' = '&' ∧
          ('a' :: 'm' :: 'p' :: ';' :: t.flatMap e2).take (['g', 't', ';'] : List Char).length
            = ['g', 't', ';']) := by
        intro hc
        have hx := hc.2
        rw [show ('a' :: 'm' :: 'p' :: ';' :: t.flatMap e2).take (['g', 't', ';'] : List Char).length
            = ['a', 'm', 'p'] from rfl] at hx
        exact absurd hx (by decide)
      rw [unescP_cons_neg hneg]
      show '&' :: unescP '&' ['g', 't', ';'] '>' (['a', 'm', 'p', ';'] ++ t.flatMap e2) = _
      rw [unescP_steps '&' ['g', 't', ';'] '>' ['a', 'm', 'p', ';'] (by decide) (t.flatMap e2), ih]
      rfl
    · by_cases h3 : c = '>'
      · subst h3
        show unescP '&' ['g', 't', ';'] '>' ('&' :: 'g' :: 't' :: ';' :: t.flatMap e2)
          = '>' :: t.flatMap e1
        have hpos : ('g' :: 't' :: ';' :: t.flatMap e2).take (['g', 't', ';'] : List Char).length
            = ['g', 't', ';'] := rfl
        rw [unescP_cons_pos rfl hpos]
        show '>' :: unescP '&' ['g', 't', ';'] '>' (t.flatMap e2) = '>' :: t.flatMap e1
        rw [ih]
      · rw [List.flatMap_cons, List.flatMap_cons,
          show e2 c = [c] from by rw [e2, if_neg h1, if_neg h3],
          show e1 c = [c] from by rw [e1, if_neg h1],
          List.cons_append, List.nil_append, List.cons_append, List.nil_append,
          unescP_cons_neg (fun hc => h1 hc.1), ih]

theorem unescAmp_flatMap_e1 (s : List Char) :
    unescP '&' ['a', 'm', 'p', ';'] '&' (s.flatMap e1) = s := by
  induction s with
  | nil => exact unescP_nil _ _ _
  | cons c t ih =>
    by_cases h1 : c = '&'
    · subst h1
      show unescP '&' ['a', 'm', 'p', ';'] '&' ('&' :: 'a' :: 'm' :: 'p' :: ';' :: t.flatMap e1)
        = '&' :: t
      have hpos : ('a' :: 'm' :: 'p' :: ';' :: t.flatMap e1).take
          (['a', 'm', 'p', ';'] : List Char).length = ['a', 'm', 'p', ';'] := rfl
      rw [unescP_cons_pos rfl hpos]
      show '&' :: unescP '&' ['a', 'm', 'p', ';'] '&' (t.flatMap e1) = '&' :: t
      rw [ih]
    · rw [List.flatMap_cons,
        show e1 c = [c] from by rw [e1, if_neg h1],
        List.cons_append, List.nil_append,
        unescP_cons_neg (fun hc => h1 hc.1), ih]

/-- Reversing the three replacements recovers any original text. -/
theorem unescapeL_escapeL (l : List Char) : unescapeL (escapeL l) = l := by
  rw [escapeL_eq_flatMap, unescapeL, unescLt_flatMap_e3, unescGt_flatMap_e2, unescAmp_flatMap_e1]

theorem unescape_escape (s : String) : unescape (escape s) = s := by
  cases s with
  | mk data =>
    show String.mk (unescapeL (escapeL data)) = String.mk data
    rw [unescapeL_escapeL]

theorem wellEscaped_cons (c : Char) (t : List Char) :
    wellEscaped (c :: t) =
      if c = '<' ∨ c = '>' then false
      else if c = '&' then
        if t.take 4 = ['a', 'm', 'p', ';'] ∨ t.take 3 = ['l', 't', ';'] ∨ t.take 3 = ['g', 't', ';'] then
          wellEscaped t
        else false
      else wellEscaped t := rfl

theorem take4_cons (a b c d : Char) (l : List Char) :
    (a :: b :: c :: d :: l).take 4 = [a, b, c, d] := rfl

theorem take3_cons (a b c : Char) (l : List Char) : (a :: b :: c :: l).take 3 = [a, b, c] := rfl

theorem wellEscaped_steps (pre : List Char) (h : ∀ c ∈ pre, c ≠ '<' ∧ c ≠ '>' ∧ c ≠ '&') :
    ∀ l : List Char, wellEscaped (pre ++ l) = wellEscaped l := by
  induction pre with
  | nil => intro l; rfl
  | cons c t ih =>
    intro l
    have hc := h c (List.mem_cons_self c t)
    rw [List.cons_append, wellEscaped_cons,
      if_neg (fun hor => by rcases hor with hx | hx; exact hc.1 hx; exact hc.2.1 hx),
      if_neg hc.2.2]
    exact ih (fun x hx => h x (List.mem_cons_of_mem c hx)) l

theorem wellEscaped_flatMap_e3 (l : List Char) : wellEscaped (l.flatMap e3) = true := by
  induction l with
  | nil => rfl
  | cons c t ih =>
    by_cases h1 : c = '&'
    · subst h1
      show wellEscaped ('&' :: 'a' :: 'm' :: 'p' :: ';' :: t.flatMap e3) = true
      rw [wellEscaped_cons, if_neg (by decide), if_pos rfl,
        if_pos (Or.inl (take4_cons 'a' 'm' 'p' ';' (t.flatMap e3)))]
      show wellEscaped (['a', 'm', 'p', ';'] ++ t.flatMap e3) = true
      rw [wellEscaped_steps ['a', 'm', 'p', ';'] (by decide) (t.flatMap e3)]
      exact ih
    · by_cases h2 : c = '<'
      · subst h2
        show wellEscaped ('&' :: 'l' :: 't' :: ';' :: t.flatMap e3) = true
        rw [wellEscaped_cons, if_neg (by decide), if_pos rfl,
          if_pos (Or.inr (Or.inl (take3_cons 'l' 't' ';' (t.flatMap e3))))]
        show wellEscaped (['l', 't', ';'] ++ t.flatMap e3) = true
        rw [wellEscaped_steps ['l', 't', ';'] (by decide) (t.flatMap e3)]
        exact ih
      · by_cases h3 : c = '>'
        · subst h3
          show wellEscaped ('&' :: 'g' :: 't' :: ';' :: t.flatMap e3) = true
          rw [wellEscaped_cons, if_neg (by decide), if_pos rfl,
            if_pos (Or.inr (Or.inr (take3_cons 'g' 't' ';' (t.flatMap e3))))]
          show wellEscaped (['g', 't', ';'] ++ t.flatMap e3) = true
          rw [wellEscaped_steps ['g', 't', ';'] (by decide) (t.flatMap e3)]
          exact ih
        · rw [List.flatMap_cons,
            show e3 c = [c] from by rw [e3, if_neg h1, if_neg h2, if_neg h3],
            List.cons_append, List.nil_append, wellEscaped_cons,
            if_neg (fun hor => by rcases hor with hx | hx; exact h2 hx; exact h3 hx),
            if_neg h1]
          exact ih

/-- `escape` produces well-escaped text: no raw `<` or `>`, and every `&`
starts an entity. -/
theorem wellEscaped_escape (s : String) : wellEscaped (escape s).data = true := by
  show wellEscaped (escapeL s.data) = true
  rw [escapeL_eq_flatMap]
  exact wellEscaped_flatMap_e3 s.data

/-! ### Lemmas about the serializer's line list -/

theorem length_fileBlock (f : IncludedFile) : (fileBlock f).length = 3 := rfl

theorem length_flatMap_fileBlock (fs : List IncludedFile) :
    (fs.flatMap fileBlock).length = 3 * fs.length := by
  induction fs with
  | nil => rfl
  | cons f t ih =>
    rw [List.flatMap_cons, List.length_append, ih, length_fileBlock, List.length_cons]
    omega

theorem flatMap_fileBlock_getElem (fs : List IncludedFile) :
    ∀ (i j : Nat) (h : i < fs.length), j < 3 →
      (fs.flatMap fileBlock)[3 * i + j]? = (fileBlock (fs.get ⟨i, h⟩))[j]? := by
  induction fs with
  | nil =>
    intro i j h
    exact absurd h (Nat.not_lt_zero i)
  | cons f t ih =>
    intro i j h hj
    cases i with
    | zero =>
      rw [List.flatMap_cons, Nat.mul_zero, Nat.zero_add,
        List.getElem?_append, if_pos (by rw [length_fileBlock]; exact hj)]
      rfl
    | succ i' =>
      rw [List.flatMap_cons,
        List.getElem?_append_right (by rw [length_fileBlock]; omega),
        length_fileBlock,
        show 3 * (i' + 1) + j - 3 = 3 * i' + j from by omega,
        ih i' j (by exact Nat.lt_of_succ_lt_succ h) hj]
      rfl

/-! ### Lemmas about the traversal -/

theorem readInfo_spec (tok : String → Nat) (e : FsEntry) (i : FileInfo)
    (h : readInfo tok e = some i) : i.char_count = i.content.length := by
  cases e with
  | dir n l => exact absurd h (by simp [readInfo])
  | file n sz bin cont =>
    cases sz with
    | none => exact absurd h (by simp [readInfo])
    | some b =>
      cases bin with
      | true => exact absurd h (by simp [readInfo])
      | false =>
        cases cont with
        | none => exact absurd h (by simp [readInfo])
        | some c =>
          rw [show readInfo tok (FsEntry.file n (some b) false (some c))
              = some ⟨n, c, c.length, tok c, format_size b⟩ from rfl] at h
          cases h
          rfl

theorem mkRecord_good (rel : List String) (i : FileInfo)
    (hc : i.char_count = i.content.length) (hz : i.char_count ≠ 0) :
    GoodRec (mkRecord rel i) := by
  constructor
  · exact hc
  · exact Nat.pos_of_ne_zero hz

/-- Shape of the one-by-one files loop: exactly one answer per candidate is
consumed, the log is untouched, and the accumulator is extended by records
made from non-empty candidates only. -/
theorem processFilesOne_spec (ans : Nat → Ans) (rel : List String) :
    ∀ (infos : List FileInfo) (st : St),
      ∃ t : List IncludedFile,
        processFilesOne ans rel infos st = ⟨st.acc ++ t, st.k + infos.length, st.log⟩
        ∧ ∀ r ∈ t, ∃ i, i ∈ infos ∧ i.char_count ≠ 0 ∧ r = mkRecord rel i := by
  intro infos
  induction infos with
  | nil =>
    intro st
    refine ⟨[], ?_, by simp⟩
    show st = ⟨st.acc ++ [], st.k + 0, st.log⟩
    cases st
    simp
  | cons i t ih =>
    intro st
    by_cases hy : ans st.k = Ans.y
    · by_cases hz : i.char_count = 0
      · have hstep : processFilesOne ans rel (i :: t) st
            = processFilesOne ans rel t ⟨st.acc, st.k + 1, st.log⟩ := by
          rw [processFilesOne]
          rw [if_pos hy, if_pos hz]
        obtain ⟨u, hu, hgood⟩ := ih ⟨st.acc, st.k + 1, st.log⟩
        refine ⟨u, ?_, ?_⟩
        · rw [hstep, hu]
          show St.mk (st.acc ++ u) (st.k + 1 + t.length) st.log
            = St.mk (st.acc ++ u) (st.k + (i :: t).length) st.log
          rw [List.length_cons]
          congr 1
          omega
        · intro r hr
          obtain ⟨i', hi', hz', hr'⟩ := hgood r hr
          exact ⟨i', List.mem_cons_of_mem i hi', hz', hr'⟩
      · have hstep : processFilesOne ans rel (i :: t) st
            = processFilesOne ans rel t ⟨st.acc ++ [mkRecord rel i], st.k + 1, st.log⟩ := by
          rw [processFilesOne]
          rw [if_pos hy, if_neg hz]
        obtain ⟨u, hu, hgood⟩ := ih ⟨st.acc ++ [mkRecord rel i], st.k + 1, st.log⟩
        refine ⟨mkRecord rel i :: u, ?_, ?_⟩
        · rw [hstep, hu]
          show St.mk (st.acc ++ [mkRecord rel i] ++ u) (st.k + 1 + t.length) st.log
            = St.mk (st.acc ++ mkRecord rel i :: u) (st.k + (i :: t).length) st.log
          rw [List.length_cons]
          congr 1
          · simp
          · omega
        · intro r hr
          rcases List.mem_cons.mp hr with hr' | hr'
          · exact ⟨i, List.mem_cons_self i t, hz, hr'⟩
          · obtain ⟨i', hi', hz', hre⟩ := hgood r hr'
            exact ⟨i', List.mem_cons_of_mem i hi', hz', hre⟩
    · have hstep : processFilesOne ans rel (i :: t) st
          = processFilesOne ans rel t ⟨st.acc, st.k + 1, st.log⟩ := by
        rw [processFilesOne]
        rw [if_neg hy]
      obtain ⟨u, hu, hgood⟩ := ih ⟨st.acc, st.k + 1, st.log⟩
      refine ⟨u, ?_, ?_⟩
      · rw [hstep, hu]
        show St.mk (st.acc ++ u) (st.k + 1 + t.length) st.log
          = St.mk (st.acc ++ u) (st.k + (i :: t).length) st.log
        rw [List.length_cons]
        congr 1
        omega
      · intro r hr
        obtain ⟨i', hi', hz', hr'⟩ := hgood r hr
        exact ⟨i', List.mem_cons_of_mem i hi', hz', hr'⟩

theorem filesSelectedAll_spec (rel : List String) (infos : List FileInfo) :
    ∀ r ∈ filesSelectedAll rel infos, ∃ i, i ∈ infos ∧ i.char_count ≠ 0 ∧ r = mkRecord rel i := by
  intro r hr
  obtain ⟨i, hi, hconv⟩ := List.mem_filterMap.mp hr
  by_cases hz : i.char_count = 0
  · rw [if_pos hz] at hconv
    cases hconv
  · rw [if_neg hz] at hconv
    cases hconv
    exact ⟨i, hi, hz, rfl⟩

/-- Shape of one files block: the accumulator is extended by good records
only, some number of answers is consumed, and the log grows by exactly the
candidate names. -/
theorem processFiles_spec (ans : Nat → Ans) (tok : String → Nat) (rel : List String)
    (files : List FsEntry) (st : St) :
    ∃ (t : List IncludedFile) (m : Nat),
      processFiles ans tok rel files st = ⟨st.acc ++ t, st.k + m, st.log ++ files.map nameOf⟩
      ∧ ∀ r ∈ t, ∃ i, i ∈ files.filterMap (readInfo tok) ∧ i.char_count ≠ 0 ∧ r = mkRecord rel i := by
  by_cases hempty : files.isEmpty
  · refine ⟨[], 0, ?_, by simp⟩
    rw [show processFiles ans tok rel files st = st from by rw [processFiles, if_pos hempty]]
    rw [List.isEmpty_iff.mp hempty]
    cases st
    simp
  · have hstep : processFiles ans tok rel files st
        = match ans (st.k) with
          | Ans.y => ⟨st.acc ++ filesSelectedAll rel (files.filterMap (readInfo tok)),
              st.k + 1, st.log ++ files.map nameOf⟩
          | Ans.n => ⟨st.acc, st.k + 1, st.log ++ files.map nameOf⟩
          | Ans.o => processFilesOne ans rel (files.filterMap (readInfo tok))
              ⟨st.acc, st.k + 1, st.log ++ files.map nameOf⟩ := by
      rw [processFiles, if_neg hempty]
    cases hc : ans st.k with
    | y =>
      rw [hstep, hc]
      exact ⟨filesSelectedAll rel (files.filterMap (readInfo tok)), 1, rfl,
        filesSelectedAll_spec rel (files.filterMap (readInfo tok))⟩
    | n =>
      rw [hstep, hc]
      refine ⟨[], 1, ?_, by simp⟩
      simp
    | o =>
      rw [hstep, hc]
      obtain ⟨u, hu, hgood⟩ := processFilesOne_spec ans rel (files.filterMap (readInfo tok))
        ⟨st.acc, st.k + 1, st.log ++ files.map nameOf⟩
      refine ⟨u, 1 + (files.filterMap (readInfo tok)).length, ?_, hgood⟩
      rw [hu]
      show St.mk (st.acc ++ u) (st.k + 1 + (files.filterMap (readInfo tok)).length) _ = _
      congr 1
      omega

theorem StepSpec_refl (st : St) : StepSpec st st :=
  ⟨[], 0, [], by cases st; simp, by simp, by simp⟩

theorem StepSpec_trans {a b c : St} (h1 : StepSpec a b) (h2 : StepSpec b c) : StepSpec a c := by
  obtain ⟨t1, m1, l1, he1, hg1, hl1⟩ := h1
  obtain ⟨t2, m2, l2, he2, hg2, hl2⟩ := h2
  refine ⟨t1 ++ t2, m1 + m2, l1 ++ l2, ?_, ?_, ?_⟩
  · rw [he2, he1]
    simp [List.append_assoc, Nat.add_assoc]
  · intro r hr
    rcases List.mem_append.mp hr with hx | hx
    · exact hg1 r hx
    · exact hg2 r hx
  · intro nm hnm
    rcases List.mem_append.mp hnm with hx | hx
    · exact hl1 nm hx
    · exact hl2 nm hx

theorem StepSpec_bump (st : St) : StepSpec st ⟨st.acc, st.k + 1, st.log⟩ :=
  ⟨[], 1, [], by cases st; simp, by simp, by simp⟩

theorem StepSpec_log (st : St) (lg : List String) (h : ∀ nm ∈ lg, startsWithDot nm = false) :
    StepSpec st ⟨st.acc, st.k, st.log ++ lg⟩ :=
  ⟨[], 0, lg, by cases st; simp, by simp, h⟩

theorem fileKept_nonDot (e : FsEntry) (h : fileKept e = true) :
    startsWithDot (nameOf e) = false := by
  cases hb : startsWithDot (nameOf e) with
  | false => rfl
  | true =>
    rw [fileKept, hb] at h
    simp at h

theorem dirKept_nonDot (e : FsEntry) (h : dirKept e = true) :
    startsWithDot (nameOf e) = false := by
  cases hb : startsWithDot (nameOf e) with
  | false => rfl
  | true =>
    rw [dirKept, hb] at h
    simp at h

/-- The files block of one level satisfies the step frame whenever every
candidate passed the file ignore rules. -/
theorem processFiles_step (ans : Nat → Ans) (tok : String → Nat) (rel : List String)
    (files : List FsEntry) (st : St) (h : ∀ e ∈ files, fileKept e = true) :
    StepSpec st (processFiles ans tok rel files st) := by
  obtain ⟨t, m, heq, hgood⟩ := processFiles_spec ans tok rel files st
  refine ⟨t, m, files.map nameOf, heq, ?_, ?_⟩
  · intro r hr
    obtain ⟨i, hi, hz, hrw⟩ := hgood r hr
    obtain ⟨e, _, hread⟩ := List.mem_filterMap.mp hi
    rw [hrw]
    exact mkRecord_good rel i (readInfo_spec tok e i hread) hz
  · intro nm hnm
    obtain ⟨e, he, hrw⟩ := List.mem_map.mp hnm
    rw [← hrw]
    exact fileKept_nonDot e (h e he)

/-- The joint frame invariant of the three mutually recursive traversal
functions, by strong induction on the tree size. -/
theorem traversal_master : ∀ n : Nat,
    (∀ e : FsEntry, sizeOf e ≤ n →
      ∀ (ans : Nat → Ans) (tok : String → Nat) (rel : List String) (st : St),
        StepSpec st (processDir ans tok e rel st))
    ∧ (∀ ds : List FsEntry, sizeOf ds ≤ n →
      ∀ (ans : Nat → Ans) (tok : String → Nat) (rel : List String) (st : St),
        StepSpec st (processDirsAll ans tok ds rel st)
        ∧ StepSpec st (processDirsOne ans tok ds rel st)) := by
  intro n
  induction n using Nat.strong_induction_on with
  | _ n IH =>
    constructor
    · intro e he ans tok rel st
      match e with
      | .file nm sz bin cont =>
        rw [show processDir ans tok (.file nm sz bin cont) rel st = st from by rw [processDir]]
        exact StepSpec_refl st
      | .dir nm none =>
        rw [show processDir ans tok (.dir nm none) rel st = st from by rw [processDir]]
        exact StepSpec_refl st
      | .dir nm (some listing) =>
        rw [processDir]
        have hfk : ∀ x ∈ (sortEntries (listing.filter keepListing)).filter
            (fun x => isFileE x && fileKept x), fileKept x = true := by
          intro x hx
          have hmem := (List.mem_filter.mp hx).2
          simp only [Bool.and_eq_true] at hmem
          exact hmem.2
        have hfiles := processFiles_step ans tok rel
          ((sortEntries (listing.filter keepListing)).filter fun x => isFileE x && fileKept x)
          st hfk
        set st1 := processFiles ans tok rel
          ((sortEntries (listing.filter keepListing)).filter fun x => isFileE x && fileKept x) st
          with hst1
        by_cases hde : ((sortEntries (listing.filter keepListing)).filter
            fun x => isDirE x && dirKept x).isEmpty
        · rw [if_pos hde]
          exact hfiles
        · rw [if_neg hde]
          set dirs := (sortEntries (listing.filter keepListing)).filter
            fun x => isDirE x && dirKept x with hdirs
          have hdk : ∀ nmx ∈ dirs.map nameOf, startsWithDot nmx = false := by
            intro nmx hnm
            obtain ⟨x, hx, hrw⟩ := List.mem_map.mp hnm
            rw [hdirs] at hx
            rw [← hrw]
            have hmem := (List.mem_filter.mp hx).2
            simp only [Bool.and_eq_true] at hmem
            exact dirKept_nonDot x hmem.2
          have hlog : StepSpec st1 ⟨st1.acc, st1.k, st1.log ++ dirs.map nameOf⟩ :=
            StepSpec_log st1 (dirs.map nameOf) hdk
          have hbump : StepSpec (⟨st1.acc, st1.k, st1.log ++ dirs.map nameOf⟩ : St)
              ⟨st1.acc, st1.k + 1, st1.log ++ dirs.map nameOf⟩ :=
            StepSpec_bump ⟨st1.acc, st1.k, st1.log ++ dirs.map nameOf⟩
          have hsz : sizeOf dirs < n := by
            have h1 := sizeOf_filter_le (fun x => isDirE x && dirKept x)
              (sortEntries (listing.filter keepListing))
            have h2 := sizeOf_sortEntries (listing.filter keepListing)
            have h3 := sizeOf_filter_le keepListing listing
            have h4 : sizeOf (FsEntry.dir nm (some listing)) ≤ n := he
            simp only [FsEntry.dir.sizeOf_spec, Option.some.sizeOf_spec] at h4
            rw [hdirs]
            omega
          have hrec := (IH (sizeOf dirs) hsz).2 dirs (le_refl _) ans tok rel
            ⟨st1.acc, st1.k + 1, st1.log ++ dirs.map nameOf⟩
          have hpre := StepSpec_trans hfiles (StepSpec_trans hlog hbump)
          dsimp only
          cases hc : ans st1.k with
          | y => exact StepSpec_trans hpre hrec.1
          | n => exact hpre
          | o => exact StepSpec_trans hpre hrec.2
    · intro ds hds ans tok rel st
      match ds with
      | [] =>
        constructor
        · rw [show processDirsAll ans tok [] rel st = st from by rw [processDirsAll]]
          exact StepSpec_refl st
        · rw [show processDirsOne ans tok [] rel st = st from by rw [processDirsOne]]
          exact StepSpec_refl st
      | d :: t =>
        have hszd : sizeOf d < n := by
          have : sizeOf (d :: t) ≤ n := hds
          simp only [List.cons.sizeOf_spec] at this
          omega
        have hszt : sizeOf t < n := by
          have : sizeOf (d :: t) ≤ n := hds
          simp only [List.cons.sizeOf_spec] at this
          omega
        constructor
        · rw [show processDirsAll ans tok (d :: t) rel st
              = processDirsAll ans tok t rel (processDir ans tok d (rel ++ [nameOf d]) st)
              from by rw [processDirsAll]]
          exact StepSpec_trans
            ((IH (sizeOf d) hszd).1 d (le_refl _) ans tok (rel ++ [nameOf d]) st)
            ((IH (sizeOf t) hszt).2 t (le_refl _) ans tok rel _).1
        · rw [processDirsOne]
          by_cases hy : ans st.k = Ans.y
          · rw [if_pos hy]
            exact StepSpec_trans (StepSpec_bump st)
              (StepSpec_trans
                ((IH (sizeOf d) hszd).1 d (le_refl _) ans tok (rel ++ [nameOf d]) _)
                ((IH (sizeOf t) hszt).2 t (le_refl _) ans tok rel _).2)
          · rw [if_neg hy]
            exact StepSpec_trans (StepSpec_bump st)
              ((IH (sizeOf t) hszt).2 t (le_refl _) ans tok rel _).2

/-! ### Dot-prefixed entries are invisible to the traversal -/

theorem nameOf_strip (e : FsEntry) : nameOf (stripDotsE e) = nameOf e := by
  cases e with
  | file n sz bin cont => rfl
  | dir n l =>
    cases l with
    | none => rfl
    | some ll => rfl

theorem isDirE_strip (e : FsEntry) : isDirE (stripDotsE e) = isDirE e := by
  cases e with
  | file n sz bin cont => rfl
  | dir n l =>
    cases l with
    | none => rfl
    | some ll => rfl

theorem isFileE_strip (e : FsEntry) : isFileE (stripDotsE e) = isFileE e := by
  cases e with
  | file n sz bin cont => rfl
  | dir n l =>
    cases l with
    | none => rfl
    | some ll => rfl

theorem stripDotsL_eq (l : List FsEntry) :
    stripDotsL l = (l.filter fun e => !startsWithDot (nameOf e)).map stripDotsE := by
  induction l with
  | nil => rfl
  | cons e t ih =>
    rw [stripDotsL, List.filter_cons]
    by_cases hd : startsWithDot (nameOf e)
    · rw [if_pos hd, if_neg (by rw [hd]; decide), ih]
    · rw [if_neg hd, if_pos (by rw [Bool.not_eq_true] at hd; rw [hd]; decide), List.map_cons, ih]

theorem keepListing_strip (e : FsEntry) : keepListing (stripDotsE e) = keepListing e := by
  rw [keepListing, keepListing, nameOf_strip, isDirE_strip]

theorem fileKeep_strip (e : FsEntry) :
    (isFileE (stripDotsE e) && fileKept (stripDotsE e)) = (isFileE e && fileKept e) := by
  rw [isFileE_strip, fileKept, fileKept, nameOf_strip]

theorem dirKeep_strip (e : FsEntry) :
    (isDirE (stripDotsE e) && dirKept (stripDotsE e)) = (isDirE e && dirKept e) := by
  rw [isDirE_strip, dirKept, dirKept, nameOf_strip]

theorem filter_map_strip (p : FsEntry → Bool) (hp : ∀ x, p (stripDotsE x) = p x)
    (l : List FsEntry) : (l.map stripDotsE).filter p = (l.filter p).map stripDotsE := by
  induction l with
  | nil => rfl
  | cons e t ih =>
    rw [List.map_cons, List.filter_cons, List.filter_cons, hp e]
    by_cases hx : p e
    · rw [if_pos hx, if_pos hx, List.map_cons, ih]
    · rw [if_neg hx, if_neg hx, ih]

theorem keepListing_nonDot (e : FsEntry) (h : keepListing e = true) :
    startsWithDot (nameOf e) = false := by
  cases hb : startsWithDot (nameOf e) with
  | false => rfl
  | true =>
    rw [keepListing, hb] at h
    simp at h

theorem filtered_strip (listing : List FsEntry) :
    (stripDotsL listing).filter keepListing
      = (listing.filter keepListing).map stripDotsE := by
  rw [stripDotsL_eq, filter_map_strip keepListing keepListing_strip, List.filter_filter]
  have hcongr : ∀ a ∈ listing,
      (keepListing a && !startsWithDot (nameOf a)) = keepListing a := by
    intro a _
    cases hk : keepListing a with
    | false => rfl
    | true => rw [keepListing_nonDot a hk]; rfl
  rw [List.filter_congr hcongr]

theorem nameLe_strip (a b : FsEntry) : nameLe (stripDotsE a) (stripDotsE b) = nameLe a b := by
  rw [nameLe, nameLe, nameOf_strip, nameOf_strip]

theorem insertE_strip (a : FsEntry) (l : List FsEntry) :
    insertE (stripDotsE a) (l.map stripDotsE) = (insertE a l).map stripDotsE := by
  induction l with
  | nil => rfl
  | cons b t ih =>
    rw [List.map_cons, insertE, insertE, nameLe_strip]
    by_cases hx : nameLe a b
    · rw [if_pos hx, if_pos hx, List.map_cons, List.map_cons]
    · rw [if_neg hx, if_neg hx, List.map_cons, ih]

theorem sortEntries_strip (l : List FsEntry) :
    sortEntries (l.map stripDotsE) = (sortEntries l).map stripDotsE := by
  induction l with
  | nil => rfl
  | cons e t ih =>
    rw [List.map_cons, sortEntries, sortEntries, ih, insertE_strip]

theorem map_stripE_of_files (l : List FsEntry) (h : ∀ e ∈ l, isFileE e = true) :
    l.map stripDotsE = l := by
  induction l with
  | nil => rfl
  | cons e t ih =>
    rw [List.map_cons, ih (fun x hx => h x (List.mem_cons_of_mem e hx))]
    have he := h e (List.mem_cons_self e t)
    cases e with
    | file n sz bin cont => rfl
    | dir n ll => exact absurd he (by rw [isFileE]; decide)

theorem files_strip (E : List FsEntry) :
    (E.map stripDotsE).filter (fun x => isFileE x && fileKept x)
      = E.filter (fun x => isFileE x && fileKept x) := by
  rw [filter_map_strip _ fileKeep_strip]
  apply map_stripE_of_files
  intro e he
  have hmem := (List.mem_filter.mp he).2
  simp only [Bool.and_eq_true] at hmem
  exact hmem.1

theorem dirs_strip (E : List FsEntry) :
    (E.map stripDotsE).filter (fun x => isDirE x && dirKept x)
      = (E.filter (fun x => isDirE x && dirKept x)).map stripDotsE := by
  rw [filter_map_strip _ dirKeep_strip]

theorem isEmpty_map_strip (l : List FsEntry) : (l.map stripDotsE).isEmpty = l.isEmpty := by
  cases l with
  | nil => rfl
  | cons e t => rfl

theorem map_nameOf_strip (l : List FsEntry) :
    (l.map stripDotsE).map nameOf = l.map nameOf := by
  rw [List.map_map]
  apply List.map_congr_left
  intro e _
  exact nameOf_strip e

/-- Removing every dot-prefixed entry from the tree changes nothing: not the
included files, not the number of answers consumed, not the names shown.
Joint statement for the three traversal functions, by strong induction. -/
theorem strip_master : ∀ n : Nat,
    (∀ e : FsEntry, sizeOf e ≤ n →
      ∀ (ans : Nat → Ans) (tok : String → Nat) (rel : List String) (st : St),
        processDir ans tok (stripDotsE e) rel st = processDir ans tok e rel st)
    ∧ (∀ ds : List FsEntry, sizeOf ds ≤ n →
      ∀ (ans : Nat → Ans) (tok : String → Nat) (rel : List String) (st : St),
        processDirsAll ans tok (ds.map stripDotsE) rel st = processDirsAll ans tok ds rel st
        ∧ processDirsOne ans tok (ds.map stripDotsE) rel st = processDirsOne ans tok ds rel st) := by
  intro n
  induction n using Nat.strong_induction_on with
  | _ n IH =>
    constructor
    · intro e he ans tok rel st
      match e with
      | .file nm sz bin cont => rfl
      | .dir nm none => rfl
      | .dir nm (some listing) =>
        show processDir ans tok (.dir nm (some (stripDotsL listing))) rel st
          = processDir ans tok (.dir nm (some listing)) rel st
        rw [processDir, processDir]
        rw [filtered_strip listing, sortEntries_strip, files_strip, dirs_strip,
          isEmpty_map_strip, map_nameOf_strip]
        by_cases hde : ((sortEntries (listing.filter keepListing)).filter
            fun x => isDirE x && dirKept x).isEmpty
        · rw [if_pos hde, if_pos hde]
        · rw [if_neg hde, if_neg hde]
          set dirs := (sortEntries (listing.filter keepListing)).filter
            (fun x => isDirE x && dirKept x) with hdirs
          have hsz : sizeOf dirs < n := by
            have h1 := sizeOf_filter_le (fun x => isDirE x && dirKept x)
              (sortEntries (listing.filter keepListing))
            have h2 := sizeOf_sortEntries (listing.filter keepListing)
            have h3 := sizeOf_filter_le keepListing listing
            have h4 : sizeOf (FsEntry.dir nm (some listing)) ≤ n := he
            simp only [FsEntry.dir.sizeOf_spec, Option.some.sizeOf_spec] at h4
            rw [hdirs]
            omega
          have hrec := (IH (sizeOf dirs) hsz).2 dirs (le_refl _) ans tok rel
          dsimp only
          set st1 := processFiles ans tok rel
            ((sortEntries (listing.filter keepListing)).filter fun x => isFileE x && fileKept x)
            st with hst1
          cases hc : ans st1.k with
          | y => exact (hrec _).1
          | n => rfl
          | o => exact (hrec _).2
    · intro ds hds ans tok rel st
      match ds with
      | [] => exact ⟨rfl, rfl⟩
      | d :: t =>
        have hszd : sizeOf d < n := by
          have : sizeOf (d :: t) ≤ n := hds
          simp only [List.cons.sizeOf_spec] at this
          omega
        have hszt : sizeOf t < n := by
          have : sizeOf (d :: t) ≤ n := hds
          simp only [List.cons.sizeOf_spec] at this
          omega
        constructor
        · rw [List.map_cons, processDirsAll, processDirsAll, nameOf_strip,
            (IH (sizeOf d) hszd).1 d (le_refl _) ans tok (rel ++ [nameOf d]) st,
            ((IH (sizeOf t) hszt).2 t (le_refl _) ans tok rel _).1]
        · rw [List.map_cons, processDirsOne, processDirsOne, nameOf_strip]
          by_cases hy : ans st.k = Ans.y
          · rw [if_pos hy, if_pos hy,
              (IH (sizeOf d) hszd).1 d (le_refl _) ans tok (rel ++ [nameOf d]) _,
              ((IH (sizeOf t) hszt).2 t (le_refl _) ans tok rel _).2]
          · rw [if_neg hy, if_neg hy,
              ((IH (sizeOf t) hszt).2 t (le_refl _) ans tok rel _).2]

theorem roundHalfEven_bounds (t d : Nat) (hd : 0 < d) :
    t ≤ roundHalfEven t d * d + d / 2 ∧ roundHalfEven t d * d ≤ t + d / 2 := by
  have hdm : d * (t / d) + t % d = t := Nat.div_add_mod t d
  have hlt : t % d < d := Nat.mod_lt t hd
  have hmul : (t / d + 1) * d = d * (t / d) + d := by ring
  have hmul2 : t / d * d = d * (t / d) := by ring
  rw [roundHalfEven]
  split_ifs with h1 h2 h3 <;> exact ⟨by omega, by omega⟩

/-! ### The claims -/

/-- C1, counterexample to the claim as stated: with an included file whose
path holds a `&`, the index block's path line embeds the path raw (its `&`
is not escaped), and with a repository name holding a `"`, the quote lands
in the `name` attribute unescaped (`escape` does not touch `"`). -/
theorem C1_counterexample :
    (generate_xml_lines [⟨"a&b.txt", "x", 1, 1⟩] "r")[2]? = some "    /a&b.txt"
    ∧ wellEscaped ("    /a&b.txt").data = false
    ∧ (generate_xml_lines [] "r\"q")[0]? = some "<repo name=\"r\"q\">"
    ∧ escape "r\"q" = "r\"q" := by
  refine ⟨?_, ?_, ?_, ?_⟩ <;> decide

/-- C1 as amended: `generate_xml` escapes `&`, `<`, `>` in the repository
name, in each file block's path attribute and in each content body (and the
index also lists each raw path, unescaped); `"` is never escaped. -/
theorem C1_escaping_amended (files : List IncludedFile) (repo_name : String) :
    wellEscaped (escape repo_name).data = true
    ∧ (generate_xml_lines files repo_name)[0]?
        = some ("<repo name=\"" ++ escape repo_name ++ "\">")
    ∧ ∀ f ∈ files,
        wellEscaped (escape f.path).data = true
        ∧ wellEscaped (escape f.content).data = true
        ∧ ("  <file path=\"" ++ escape f.path ++ "\">") ∈ generate_xml_lines files repo_name
        ∧ ("    " ++ escape f.content) ∈ generate_xml_lines files repo_name
        ∧ ("    /" ++ f.path) ∈ generate_xml_lines files repo_name := by
  refine ⟨wellEscaped_escape repo_name, rfl, ?_⟩
  intro f hf
  have hblock : ∀ s ∈ fileBlock f, s ∈ generate_xml_lines files repo_name := by
    intro s hs
    rw [generate_xml_lines]
    simp only [List.append_assoc]
    refine List.mem_append.mpr (Or.inr ?_)
    refine List.mem_append.mpr (Or.inr ?_)
    refine List.mem_append.mpr (Or.inr ?_)
    refine List.mem_append.mpr (Or.inl ?_)
    exact List.mem_flatMap.mpr ⟨f, hf, hs⟩
  refine ⟨wellEscaped_escape f.path, wellEscaped_escape f.content, ?_, ?_, ?_⟩
  · exact hblock _ (by rw [fileBlock]; exact List.mem_cons_self _ _)
  · exact hblock _ (by
      rw [fileBlock]
      exact List.mem_cons_of_mem _ (List.mem_cons_self _ _))
  · rw [generate_xml_lines]
    simp only [List.append_assoc]
    refine List.mem_append.mpr (Or.inr ?_)
    refine List.mem_append.mpr (Or.inl ?_)
    exact List.mem_map.mpr ⟨f, hf, rfl⟩

/-- C2: starting from an empty accumulator, every record the traversal
returns has a positive character count equal to the length of its decoded
content — a zero-length file is never recorded, whatever the answers. -/
theorem C2_zero_length_never_included (ans : Nat → Ans) (tok : String → Nat) (e : FsEntry)
    (rel : List String) (k : Nat) (log : List String) :
    ((processDir ans tok e rel ⟨[], k, log⟩).acc).Forall
      (fun r => 0 < r.char_count ∧ r.char_count = r.content.length) := by
  obtain ⟨t, m, lg, heq, hgood, _⟩ :=
    (traversal_master (sizeOf e)).1 e (le_refl _) ans tok rel ⟨[], k, log⟩
  rw [heq]
  refine List.forall_iff_forall_mem.mpr ?_
  intro r hr
  have hmem : r ∈ t := by simpa using hr
  obtain ⟨h1, h2⟩ := hgood r hmem
  exact ⟨h2, h1⟩

/-- C3: dot-prefixed entries are invisible: deleting them all changes
neither the result, nor the answers consumed, nor the names shown; and no
name the traversal ever logs (lists to the operator) starts with a dot. -/
theorem C3_dot_entries_invisible (ans : Nat → Ans) (tok : String → Nat) (e : FsEntry)
    (rel : List String) (st : St) (hlog : ∀ nm ∈ st.log, startsWithDot nm = false) :
    processDir ans tok (stripDotsE e) rel st = processDir ans tok e rel st
    ∧ ∀ nm ∈ (processDir ans tok e rel st).log, startsWithDot nm = false := by
  refine ⟨(strip_master (sizeOf e)).1 e (le_refl _) ans tok rel st, ?_⟩
  obtain ⟨t, m, lg, heq, _, hlg⟩ :=
    (traversal_master (sizeOf e)).1 e (le_refl _) ans tok rel st
  rw [heq]
  intro nm hnm
  rcases List.mem_append.mp hnm with hx | hx
  · exact hlog nm hx
  · exact hlg nm hx

/-- C3 witness at a concrete tree (a dot file, a `.git` directory and a
plain file) with a concrete answer stream. -/
theorem C3_witness :
    processDir (fun _ => Ans.y) (fun s => s.length)
        (stripDotsE (FsEntry.dir "root" (some
          [FsEntry.file ".hidden" (some 1) false (some "x"),
           FsEntry.dir ".git" (some []),
           FsEntry.file "a.txt" (some 2) false (some "ok")]))) [] ⟨[], 0, []⟩
      = processDir (fun _ => Ans.y) (fun s => s.length)
        (FsEntry.dir "root" (some
          [FsEntry.file ".hidden" (some 1) false (some "x"),
           FsEntry.dir ".git" (some []),
           FsEntry.file "a.txt" (some 2) false (some "ok")])) [] ⟨[], 0, []⟩
    ∧ ∀ nm ∈ (processDir (fun _ => Ans.y) (fun s => s.length)
        (FsEntry.dir "root" (some
          [FsEntry.file ".hidden" (some 1) false (some "x"),
           FsEntry.dir ".git" (some []),
           FsEntry.file "a.txt" (some 2) false (some "ok")])) [] ⟨[], 0, []⟩).log,
        startsWithDot nm = false :=
  C3_dot_entries_invisible (fun _ => Ans.y) (fun s => s.length)
    (FsEntry.dir "root" (some
      [FsEntry.file ".hidden" (some 1) false (some "x"),
       FsEntry.dir ".git" (some []),
       FsEntry.file "a.txt" (some 2) false (some "ok")])) [] ⟨[], 0, []⟩
    (by intro nm hnm; exact absurd hnm (List.not_mem_nil nm))

/-- C4: the index block lists the paths prefixed by `/` at consecutive
positions in input order, and the file blocks follow, in the same order. -/
theorem getElem?_cons2 {α : Type} (a b : α) (l : List α) (i : Nat) :
    (a :: b :: l)[2 + i]? = l[i]? := by
  rw [show 2 + i = i + 1 + 1 from by omega, List.getElem?_cons_succ, List.getElem?_cons_succ]

theorem C4_ordering (files : List IncludedFile) (repo_name : String) (i : Nat)
    (h : i < files.length) :
    (generate_xml_lines files repo_name)[2 + i]?
        = some ("    /" ++ (files.get ⟨i, h⟩).path)
    ∧ (generate_xml_lines files repo_name)[3 + files.length + 3 * i]?
        = some ("  <file path=\"" ++ escape (files.get ⟨i, h⟩).path ++ "\">")
    ∧ (generate_xml_lines files repo_name)[3 + files.length + 3 * i + 1]?
        = some ("    " ++ escape (files.get ⟨i, h⟩).content) := by
  rw [generate_xml_lines]
  simp only [List.append_assoc, List.cons_append, List.nil_append]
  refine ⟨?_, ?_, ?_⟩
  · rw [getElem?_cons2,
      List.getElem?_append, if_pos (by rw [List.length_map]; exact h),
      List.getElem?_map, List.getElem?_eq_getElem h]
    rfl
  · rw [show 3 + files.length + 3 * i = 2 + (files.length + (3 * i + 1)) from by omega,
      getElem?_cons2,
      List.getElem?_append_right (by rw [List.length_map]; omega),
      show files.length + (3 * i + 1) - (files.map indexLine).length = 3 * i + 1 from by
        rw [List.length_map]; omega,
      List.getElem?_cons_succ,
      List.getElem?_append, if_pos (by rw [length_flatMap_fileBlock]; omega),
      show (3 * i : Nat) = 3 * i + 0 from by omega,
      flatMap_fileBlock_getElem files i 0 h (by omega)]
    rfl
  · rw [show 3 + files.length + 3 * i + 1 = 2 + (files.length + (3 * i + 1 + 1)) from by omega,
      getElem?_cons2,
      List.getElem?_append_right (by rw [List.length_map]; omega),
      show files.length + (3 * i + 1 + 1) - (files.map indexLine).length = 3 * i + 1 + 1 from by
        rw [List.length_map]; omega,
      List.getElem?_cons_succ,
      List.getElem?_append, if_pos (by rw [length_flatMap_fileBlock]; omega),
      flatMap_fileBlock_getElem files i 1 h (by omega)]
    rfl

/-- C4 witness at a concrete one-file list. -/
theorem C4_witness :
    (generate_xml_lines [⟨"p", "c", 1, 1⟩] "r")[2 + 0]?
        = some ("    /" ++ (([⟨"p", "c", 1, 1⟩] : List IncludedFile).get ⟨0, Nat.zero_lt_one⟩).path)
    ∧ (generate_xml_lines [⟨"p", "c", 1, 1⟩] "r")[3 + ([⟨"p", "c", 1, 1⟩] : List IncludedFile).length + 3 * 0]?
        = some ("  <file path=\""
            ++ escape (([⟨"p", "c", 1, 1⟩] : List IncludedFile).get ⟨0, Nat.zero_lt_one⟩).path ++ "\">")
    ∧ (generate_xml_lines [⟨"p", "c", 1, 1⟩] "r")[3 + ([⟨"p", "c", 1, 1⟩] : List IncludedFile).length + 3 * 0 + 1]?
        = some ("    " ++ escape (([⟨"p", "c", 1, 1⟩] : List IncludedFile).get ⟨0, Nat.zero_lt_one⟩).content) :=
  C4_ordering [⟨"p", "c", 1, 1⟩] "r" 0 Nat.zero_lt_one

/-- C5: an unlistable directory is recovered locally: the traversal returns
the accumulated state unchanged (no record, no answer consumed, nothing
logged), and the sibling directories after it are still traversed. -/
theorem C5_unreadable_dir (ans : Nat → Ans) (tok : String → Nat) (nm : String)
    (rel : List String) (st : St) (rest : List FsEntry) :
    processDir ans tok (FsEntry.dir nm none) rel st = st
    ∧ processDirsAll ans tok (FsEntry.dir nm none :: rest) rel st
        = processDirsAll ans tok rest rel st
    ∧ (ans st.k = Ans.y →
        processDirsOne ans tok (FsEntry.dir nm none :: rest) rel st
          = processDirsOne ans tok rest rel ⟨st.acc, st.k + 1, st.log⟩) := by
  have hbase : ∀ (rel' : List String) (st' : St),
      processDir ans tok (FsEntry.dir nm none) rel' st' = st' := by
    intro rel' st'
    rw [processDir]
  refine ⟨hbase rel st, ?_, ?_⟩
  · rw [processDirsAll, hbase]
  · intro hy
    rw [processDirsOne, if_pos hy, hbase]

/-- C6: content escaping round-trips: the serializer embeds
`escape content` as the body line of the file's block, and the inverse
replacement applied to it restores the content exactly. -/
theorem C6_escape_roundtrip (files : List IncludedFile) (repo_name : String)
    (f : IncludedFile) (hf : f ∈ files)
    (_hs : '&' ∈ f.content.data ∨ '<' ∈ f.content.data ∨ '>' ∈ f.content.data) :
    ("    " ++ escape f.content) ∈ generate_xml_lines files repo_name
    ∧ unescape (escape f.content) = f.content := by
  refine ⟨?_, unescape_escape f.content⟩
  exact (C1_escaping_amended files repo_name).2.2 f hf |>.2.2.2.1

/-- C6 witness at a concrete content string holding a `<`. -/
theorem C6_witness :
    ("    " ++ escape "a<b") ∈ generate_xml_lines [⟨"p", "a<b", 3, 1⟩] "r"
    ∧ unescape (escape "a<b") = "a<b" :=
  C6_escape_roundtrip [⟨"p", "a<b", 3, 1⟩] "r" ⟨"p", "a<b", 3, 1⟩
    (List.mem_singleton.mpr rfl) (Or.inr (Or.inl (by decide)))

/-- C7: `format_size` yields the raw count with a `B` unit below 1024, and
otherwise a string `q.r KB` with a single decimal digit `r` whose value is
the quotient by 1024 correctly rounded to one decimal place
(`|(10q + r)/10 - n/1024| ≤ 1/20`, ties to even). -/
theorem C7_format_size (num_bytes : Nat) :
    (num_bytes < 1024 → format_size num_bytes = toString num_bytes ++ " B")
    ∧ (1024 ≤ num_bytes → ∃ q r : Nat,
        format_size num_bytes = toString q ++ "." ++ toString r ++ " KB"
        ∧ r < 10
        ∧ (10 * q + r) * 1024 ≤ 10 * num_bytes + 512
        ∧ 10 * num_bytes ≤ (10 * q + r) * 1024 + 512) := by
  constructor
  · intro h
    rw [format_size, if_pos h]
  · intro h
    rw [format_size, if_neg (Nat.not_lt.mpr h)]
    refine ⟨roundHalfEven (10 * num_bytes) 1024 / 10,
      roundHalfEven (10 * num_bytes) 1024 % 10, rfl,
      Nat.mod_lt _ (by omega), ?_, ?_⟩
    · have hv : 10 * (roundHalfEven (10 * num_bytes) 1024 / 10)
          + roundHalfEven (10 * num_bytes) 1024 % 10
          = roundHalfEven (10 * num_bytes) 1024 := Nat.div_add_mod _ 10
      have hb := (roundHalfEven_bounds (10 * num_bytes) 1024 (by omega)).2
      omega
    · have hv : 10 * (roundHalfEven (10 * num_bytes) 1024 / 10)
          + roundHalfEven (10 * num_bytes) 1024 % 10
          = roundHalfEven (10 * num_bytes) 1024 := Nat.div_add_mod _ 10
      have hb := (roundHalfEven_bounds (10 * num_bytes) 1024 (by omega)).1
      omega

/-- C8: on an empty file list the serializer still produces the opening tag
with the repository name, the index block's two markers and the closing tag,
with no path line and no file block in between. -/
theorem C8_empty_input (repo_name : String) :
    generate_xml_lines [] repo_name
      = ["<repo name=\"" ++ escape repo_name ++ "\">", "  <directory structure>",
         "  </directory>\n", "</repo>"]
    ∧ generate_xml [] repo_name
      = "<repo name=\"" ++ escape repo_name ++ "\">"
          ++ "\n" ++ "  <directory structure>" ++ "\n" ++ "  </directory>\n" ++ "\n" ++ "</repo>" := by
  constructor
  · rfl
  · show String.intercalate "\n" (generate_xml_lines [] repo_name) = _
    rw [show generate_xml_lines [] repo_name
        = ["<repo name=\"" ++ escape repo_name ++ "\">", "  <directory structure>",
           "  </directory>\n", "</repo>"] from rfl]
    rw [String.intercalate]
    rw [String.intercalate.go, String.intercalate.go, String.intercalate.go]
    simp [String.append_assoc]
    rw [String.intercalate.go]

/-- C9: under the one-by-one decision every successfully read candidate,
empty content included, consumes exactly one yes/no answer; the empty-content
check runs only after a yes, so an empty candidate still consumes its answer
while adding nothing and touching nothing else. -/
theorem C9_one_by_one (ans : Nat → Ans) (rel : List String) :
    (∀ (infos : List FileInfo) (st : St),
        (processFilesOne ans rel infos st).k = st.k + infos.length)
    ∧ (∀ (i : FileInfo) (st : St), i.char_count = 0 →
        processFilesOne ans rel [i] st = ⟨st.acc, st.k + 1, st.log⟩)
    ∧ (∀ (tok : String → Nat) (files : List FsEntry) (st : St),
        files.isEmpty = false → ans st.k = Ans.o →
        processFiles ans tok rel files st
          = processFilesOne ans rel (files.filterMap (readInfo tok))
              ⟨st.acc, st.k + 1, st.log ++ files.map nameOf⟩) := by
  refine ⟨?_, ?_, ?_⟩
  · intro infos st
    obtain ⟨t, heq, _⟩ := processFilesOne_spec ans rel infos st
    rw [heq]
  · intro i st hz
    by_cases hy : ans st.k = Ans.y
    · rw [processFilesOne, if_pos hy, if_pos hz, processFilesOne]
    · rw [processFilesOne, if_neg hy, processFilesOne]
  · intro tok files st hne ho
    rw [processFiles, if_neg (by rw [hne]; decide)]
    dsimp only
    rw [ho]

/-- C10: every traversal call is append-only on its accumulator: the result
list is the input accumulator followed by the newly included files. -/
theorem C10_append_only (ans : Nat → Ans) (tok : String → Nat) (e : FsEntry)
    (rel : List String) (st : St) :
    ∃ t : List IncludedFile, (processDir ans tok e rel st).acc = st.acc ++ t := by
  obtain ⟨t, m, lg, heq, _, _⟩ := (traversal_master (sizeOf e)).1 e (le_refl _) ans tok rel st
  exact ⟨t, by rw [heq]⟩

end BuildRepoPrompt